import Mathlib

/-!
# BeatZero detection-fusion pipeline: verified model

A shallow embedding of the detection fusion and rate-decoupling pipeline of
the BeatZero repository (`broker.py`, `fft_publisher.py`), with theorems
settling the specification claims about it.

Python floats are modelled as rationals (`ℚ`); all the operations involved
(comparison, mean, min/max, division by nonzero counts) are exact on the
inputs the claims quantify over, so no floating-point rounding issue is in
scope of the claims treated here.
-/

namespace BeatZero

/-- The fixed onset method set of `broker.py` (`ONSET_METHODS`). -/
def ONSET_METHODS : List String :=
  ["energy", "hfc", "complex", "phase", "specflux", "wphase", "mkl", "kl"]

/-- `MIN_VOLUME_THRESHOLD = 0.01` in `broker.py`. -/
def MIN_VOLUME_THRESHOLD : ℚ := 1 / 100

/-- The pitch field of a packet: `{"value": v, "confidence": c}`. -/
structure PitchData where
  value : ℚ
  confidence : ℚ
deriving DecidableEq

/-- One per-frame analysis packet, as produced by `process_audio_buffer`:
onset flags per method, tempo flag and BPM, pitch with confidence, note
values, and the frame RMS volume. -/
structure Packet where
  onsets : String → Bool
  bpm : ℚ
  tempo_beat : Bool
  pitch : PitchData
  notes : List ℚ
  volume : ℚ

/-- The fused summary built by `combine_packets`.  The onset flags are kept
as the association list the Python dict construction produces (one entry per
method of `ONSET_METHODS`, in that order). -/
structure Combined where
  onsets : List (String × Bool)
  bpm : ℚ
  tempo_beat : Bool
  pitch : PitchData
  notes : List ℚ
  volume : ℚ
deriving DecidableEq

/-- Python `max(x1, ..., xn)` over a non-empty list (left fold of binary
`max` over the tail starting from the head).  `broker.py` only applies it
to non-empty lists; the `[]` case (a `TypeError` in Python) is given the
junk value `0` and is never hit under the claims' hypotheses. -/
def pyMax : List ℚ → ℚ
  | [] => 0
  | x :: xs => xs.foldl max x

/-- The BPM list comprehension of `combine_packets`:
keep the packets with `bpm > 0` and halve each kept value over `120`. -/
def normalized_bpm_values (packets : List Packet) : List ℚ :=
  (packets.filter (fun p => p.bpm > 0)).map
    (fun p => if p.bpm > 120 then p.bpm / 2 else p.bpm)

/-- The pitch-selection loop of `combine_packets`: starting from
`best_pitch = 0`, `best_confidence = 0`, replace the best pair whenever a
packet's confidence is strictly greater. -/
def best_pitch_fold (packets : List Packet) : PitchData :=
  packets.foldl
    (fun best p => if p.pitch.confidence > best.confidence then p.pitch else best)
    ⟨0, 0⟩

/-- `combine_packets(packets, volume_history)` from `broker.py`, lines
153–216: returns `none` on an empty packet list, otherwise the fused
summary.  Field by field this mirrors the Python:

* per-method onset flags: `any` over the buffer, one dict entry per method;
* `tempo_beat`: `any` over the buffer;
* `bpm`: mean of `normalized_bpm_values` when non-empty, else `0.0`;
* `pitch`: strict-greater fold starting from `(0, 0)`;
* `notes`: set union of the packets' note lists;
* `volume`: peak of the packets' volumes, gated by `MIN_VOLUME_THRESHOLD`
  and normalized by `max(*volume_history, MIN_VOLUME_THRESHOLD)` with a
  final clamp `min(1.0, max(0.0, ·))`. -/
def combine_packets (packets : List Packet) (volume_history : List ℚ) :
    Option Combined :=
  if packets.isEmpty then none
  else
    let onsets := ONSET_METHODS.map
      (fun method => (method, packets.any (fun p => p.onsets method)))
    let is_tempo_beat := packets.any (fun p => p.tempo_beat)
    let nbv := normalized_bpm_values packets
    let bpm : ℚ := if nbv.isEmpty then 0 else nbv.sum / (nbv.length : ℚ)
    let pitch := best_pitch_fold packets
    let notes := (packets.flatMap (fun p => p.notes)).dedup
    let raw_volume := pyMax (packets.map (fun p => p.volume))
    let max_vol := volume_history.foldl max MIN_VOLUME_THRESHOLD
    let volume : ℚ :=
      if raw_volume < MIN_VOLUME_THRESHOLD then 0
      else min 1 (max 0 (raw_volume / max_vol))
    some ⟨onsets, bpm, is_tempo_beat, pitch, notes, volume⟩

/-! ## Spec-side definitions (written from the specification's words, for
refinement-style comparison with the source embedding above) -/

/-- Spec §4.2 BPM octave-normalization: halve any value exceeding the fixed
threshold 120. -/
def spec_normalize_bpm (b : ℚ) : ℚ := if 120 < b then b / 2 else b

/-- Spec §4.2 BPM fusion: take exactly the frames with `bpm > 0`, normalize
each, and return the arithmetic mean; `0.0` when no frame has `bpm > 0`. -/
def spec_fused_bpm (bpms : List ℚ) : ℚ :=
  let normalized := (bpms.filter (fun b => 0 < b)).map spec_normalize_bpm
  if normalized.isEmpty then 0 else normalized.sum / (normalized.length : ℚ)

lemma normalized_bpm_values_eq (ps : List Packet) :
    normalized_bpm_values ps
      = ((ps.map Packet.bpm).filter (fun b => 0 < b)).map spec_normalize_bpm := by
  induction ps with
  | nil => rfl
  | cons p ps ih =>
      by_cases h : 0 < p.bpm <;>
        simp [normalized_bpm_values, spec_normalize_bpm, List.filter_cons, h,
          ← ih, gt_iff_lt]

/-- C1.  For every non-empty buffer, the fused BPM of `combine_packets` is
the arithmetic mean of the octave-normalized positive frame BPMs (halving
values over 120), and `0.0` when no frame has `bpm > 0`. -/
theorem combine_packets_bpm_correct (ps : List Packet) (hist : List ℚ)
    (c : Combined) (h : combine_packets ps hist = some c) :
    c.bpm = spec_fused_bpm (ps.map Packet.bpm) := by
  unfold combine_packets at h
  split at h
  · exact absurd h (by simp)
  · obtain rfl := (Option.some.injEq _ _).mp h
    simp only [spec_fused_bpm, ← normalized_bpm_values_eq]

/-- A concrete single-frame buffer used to witness the BPM theorem. -/
def bpmWitnessPackets : List Packet :=
  [⟨fun _ => false, 130, false, ⟨0, 0⟩, [], 1/2⟩]

/-- Witness for C1 at a concrete buffer (one frame, `bpm = 130`). -/
theorem combine_packets_bpm_correct_witness :
    (Combined.bpm
        ⟨ONSET_METHODS.map (fun m => (m, false)), 65, false, ⟨0, 0⟩, [], 1/2⟩)
      = spec_fused_bpm (bpmWitnessPackets.map Packet.bpm) :=
  combine_packets_bpm_correct bpmWitnessPackets [1] _ (by
    simp [combine_packets, normalized_bpm_values, best_pitch_fold, pyMax,
      MIN_VOLUME_THRESHOLD, ONSET_METHODS, bpmWitnessPackets]
    norm_num)

/-- Four frames whose BPM values are `[130, 140, 0, 125]`, the example of
the spec's BPM-normalization property. -/
def bpmExamplePackets : List Packet :=
  [⟨fun _ => false, 130, false, ⟨0, 0⟩, [], 1/2⟩,
   ⟨fun _ => false, 140, false, ⟨0, 0⟩, [], 1/2⟩,
   ⟨fun _ => false, 0, false, ⟨0, 0⟩, [], 1/2⟩,
   ⟨fun _ => false, 125, false, ⟨0, 0⟩, [], 1/2⟩]

/-- C2 counterexample.  The spec's worked example is arithmetically wrong:
`125 > 120`, so the code halves it too.  On frames with BPM
`[130, 140, 0, 125]` the normalized list is `[65, 70, 125/2]`, not
`[65, 70, 125]`, and the fused average is `395/6 ≈ 65.83`, not within
`0.01` of `86.67`. -/
theorem combine_packets_bpm_example_cx :
    normalized_bpm_values bpmExamplePackets = [65, 70, 125/2]
      ∧ normalized_bpm_values bpmExamplePackets ≠ [65, 70, 125]
      ∧ (combine_packets bpmExamplePackets [1]).map Combined.bpm = some (395/6)
      ∧ ¬ |(395/6 : ℚ) - 8667/100| < 1/100 := by
  refine ⟨?_, ?_, ?_, ?_⟩
  · simp [normalized_bpm_values, bpmExamplePackets]
    norm_num
  · simp [normalized_bpm_values, bpmExamplePackets]
    norm_num
  · simp [combine_packets, normalized_bpm_values, bpmExamplePackets]
    norm_num
  · rw [abs_sub_lt_iff]
    norm_num

/-- C2 amended.  On frames with BPM `[130, 140, 0, 125]` and threshold 120
the normalized values are `[65, 70, 62.5]` (the `0` excluded, `125` halved
as it exceeds 120) and the fused average is `395/6`, within `0.01` of
`65.83`. -/
theorem combine_packets_bpm_example_amended :
    normalized_bpm_values bpmExamplePackets = [65, 70, 125/2]
      ∧ (combine_packets bpmExamplePackets [1]).map Combined.bpm = some (395/6)
      ∧ |(395/6 : ℚ) - 6583/100| < 1/100 := by
  refine ⟨?_, ?_, ?_⟩
  · simp [normalized_bpm_values, bpmExamplePackets]
    norm_num
  · simp [combine_packets, normalized_bpm_values, bpmExamplePackets]
    norm_num
  · rw [abs_sub_lt_iff]
    norm_num

/-! ## Onset / tempo OR-fusion (C5) -/

lemma lookup_map_self {α β : Type} [DecidableEq α] (l : List α) (f : α → β)
    (a : α) (ha : a ∈ l) :
    (l.map (fun x => (x, f x))).lookup a = some (f a) := by
  induction l with
  | nil => cases ha
  | cons x xs ih =>
      by_cases hx : a = x
      · subst hx; simp [List.lookup]
      · have hmem : a ∈ xs := by
          rcases List.mem_cons.mp ha with rfl | hmem
          · exact absurd rfl hx
          · exact hmem
        have hbeq : (a == x) = false := by
          simpa [beq_eq_false_iff_ne] using hx
        simp [List.lookup, hbeq, ih hmem]

/-- C5.  For every non-empty buffer and every method of the fixed onset
method set, the fused flag stored for that method is the logical OR of the
frames' flags for it (true exactly when some frame signalled it), and the
fused tempo flag is the OR of the frames' tempo flags. -/
theorem combine_packets_or_fusion (ps : List Packet) (hist : List ℚ)
    (c : Combined) (h : combine_packets ps hist = some c) :
    (∀ m ∈ ONSET_METHODS,
        c.onsets.lookup m = some (ps.any (fun p => p.onsets m))
          ∧ ((ps.any (fun p => p.onsets m)) = true
              ↔ ∃ p ∈ ps, p.onsets m = true))
      ∧ (c.tempo_beat = true ↔ ∃ p ∈ ps, p.tempo_beat = true) := by
  unfold combine_packets at h
  split at h
  · exact absurd h (by simp)
  · obtain rfl := (Option.some.injEq _ _).mp h
    refine ⟨fun m hm => ⟨?_, List.any_eq_true⟩, List.any_eq_true⟩
    exact lookup_map_self ONSET_METHODS
      (fun x => ps.any (fun p => p.onsets x)) m hm

/-- A buffer in which exactly one frame has the `"energy"` onset flag set
(and one frame has the tempo flag set). -/
def orWitnessPackets : List Packet :=
  [⟨fun _ => false, 0, false, ⟨0, 0⟩, [], 1/2⟩,
   ⟨fun m => m = "energy", 0, true, ⟨0, 0⟩, [], 1/2⟩,
   ⟨fun _ => false, 0, false, ⟨0, 0⟩, [], 1/2⟩]

/-- Witness for C5: on a buffer where exactly one frame has
`onsets["energy"] = true` and all others false, the fused `"energy"` entry
is `true`, and so is the fused tempo flag. -/
theorem combine_packets_or_fusion_witness :
    (combine_packets orWitnessPackets [1]).map
        (fun c => (c.onsets.lookup "energy", c.tempo_beat))
      = some (some true, true) := by
  obtain ⟨c, hc⟩ : ∃ c, combine_packets orWitnessPackets [1] = some c := by
    simp [combine_packets, orWitnessPackets]
  obtain ⟨h1, h2⟩ := combine_packets_or_fusion orWitnessPackets [1] c hc
  obtain ⟨hl, hiff⟩ := h1 "energy" (by simp [ONSET_METHODS])
  have hsecond : (⟨fun m => m = "energy", 0, true, ⟨0, 0⟩, [], 1/2⟩ : Packet)
      ∈ orWitnessPackets := by simp [orWitnessPackets]
  have he : (orWitnessPackets.any (fun p => p.onsets "energy")) = true :=
    hiff.mpr ⟨_, hsecond, by simp⟩
  have ht : c.tempo_beat = true := h2.mpr ⟨_, hsecond, rfl⟩
  rw [hc]
  simp [hl, he, ht]

/-! ## Volume normalization (C3) -/

/-- Spec §4.3 loudness normalization: `maxFloor = max(historyMax,
MIN_VOLUME_THRESHOLD)`; a peak below `MIN_VOLUME_THRESHOLD` yields `0.0`,
otherwise `clamp(peak / maxFloor, 0, 1)`. -/
def spec_volume (peak histMax : ℚ) : ℚ :=
  if peak < MIN_VOLUME_THRESHOLD then 0
  else min 1 (max 0 (peak / max histMax MIN_VOLUME_THRESHOLD))

lemma foldl_max_init (xs : List ℚ) :
    ∀ a x : ℚ, xs.foldl max (max a x) = max a (xs.foldl max x) := by
  induction xs with
  | nil => intro a x; rfl
  | cons y ys ih =>
      intro a x
      simp only [List.foldl_cons]
      rw [max_assoc, ih]

lemma foldl_max_eq_pyMax (l : List ℚ) (a : ℚ) (h : l ≠ []) :
    l.foldl max a = max a (pyMax l) := by
  cases l with
  | nil => exact absurd rfl h
  | cons x xs => simpa [pyMax] using foldl_max_init xs a x

/-- C3.  For every non-empty buffer and non-empty loudness history, the
fused volume is computed from the peak loudness over the buffer: `0.0` when
the peak is below `MIN_VOLUME_THRESHOLD`, else the peak divided by
`max(historyMax, MIN_VOLUME_THRESHOLD)` clamped into `[0, 1]`. -/
theorem combine_packets_volume_correct (ps : List Packet) (hist : List ℚ)
    (c : Combined) (hhist : hist ≠ []) (h : combine_packets ps hist = some c) :
    c.volume = spec_volume (pyMax (ps.map Packet.volume)) (pyMax hist) := by
  unfold combine_packets at h
  split at h
  · exact absurd h (by simp)
  · obtain rfl := (Option.some.injEq _ _).mp h
    show (if pyMax (ps.map fun p => p.volume) < MIN_VOLUME_THRESHOLD then (0 : ℚ)
        else min 1 (max 0
          (pyMax (ps.map fun p => p.volume) / hist.foldl max MIN_VOLUME_THRESHOLD)))
      = _
    rw [foldl_max_eq_pyMax hist MIN_VOLUME_THRESHOLD hhist]
    rw [spec_volume, max_comm (pyMax hist) MIN_VOLUME_THRESHOLD]

/-- A one-frame buffer whose peak loudness is `0.005`. -/
def volWitnessQuiet : List Packet :=
  [⟨fun _ => false, 0, false, ⟨0, 0⟩, [], 1/200⟩]

/-- A one-frame buffer whose peak loudness is `0.5`. -/
def volWitnessLoud : List Packet :=
  [⟨fun _ => false, 0, false, ⟨0, 0⟩, [], 1/2⟩]

/-- Witness for C3, covering the claim's two concrete cases: a peak of
`0.005` (below the `0.01` floor) yields volume `0.0`; a peak of `0.5` with
rolling-history max `1.0` yields volume `0.5`. -/
theorem combine_packets_volume_correct_witness :
    (combine_packets volWitnessQuiet [3/10]).map Combined.volume = some 0
      ∧ (combine_packets volWitnessLoud [1]).map Combined.volume = some (1/2) := by
  obtain ⟨ca, hca⟩ : ∃ c, combine_packets volWitnessQuiet [3/10] = some c := by
    simp [combine_packets, volWitnessQuiet]
  obtain ⟨cb, hcb⟩ : ∃ c, combine_packets volWitnessLoud [1] = some c := by
    simp [combine_packets, volWitnessLoud]
  have ha := combine_packets_volume_correct volWitnessQuiet [3/10] ca
    (by simp) hca
  have hb := combine_packets_volume_correct volWitnessLoud [1] cb
    (by simp) hcb
  constructor
  · rw [hca]
    simp [ha, spec_volume, pyMax, volWitnessQuiet, MIN_VOLUME_THRESHOLD]
    norm_num
  · rw [hcb]
    simp [hb, spec_volume, pyMax, volWitnessLoud, MIN_VOLUME_THRESHOLD]
    norm_num

/-! ## Pitch selection (C4, C10) -/

lemma le_foldl_max (l : List ℚ) : ∀ a : ℚ, a ≤ l.foldl max a := by
  induction l with
  | nil => intro a; exact le_refl a
  | cons x xs ih =>
      intro a
      exact le_trans (le_max_left a x) (ih (max a x))

lemma mem_le_foldl_max (l : List ℚ) : ∀ a x : ℚ, x ∈ l → x ≤ l.foldl max a := by
  induction l with
  | nil => intro a x hx; cases hx
  | cons y ys ih =>
      intro a x hx
      rcases List.mem_cons.mp hx with rfl | hmem
      · exact le_trans (le_max_right a x) (le_foldl_max ys (max a x))
      · exact ih (max a y) x hmem

lemma mem_le_pyMax (l : List ℚ) (x : ℚ) (hx : x ∈ l) : x ≤ pyMax l := by
  cases l with
  | nil => cases hx
  | cons y ys =>
      rcases List.mem_cons.mp hx with rfl | hmem
      · exact le_foldl_max ys x
      · exact mem_le_foldl_max ys y x hmem

lemma best_step_confidence (b : PitchData) (p : Packet) :
    (if p.pitch.confidence > b.confidence then p.pitch else b).confidence
      = max b.confidence p.pitch.confidence := by
  by_cases h : p.pitch.confidence > b.confidence
  · rw [if_pos h]
    exact (max_eq_right (le_of_lt h)).symm
  · rw [if_neg h]
    exact (max_eq_left (not_lt.mp h)).symm

lemma best_fold_const (ps : List Packet) : ∀ b : PitchData,
    (∀ p ∈ ps, p.pitch.confidence ≤ b.confidence) →
    ps.foldl
        (fun best p => if p.pitch.confidence > best.confidence then p.pitch else best)
        b = b := by
  induction ps with
  | nil => intro b _; rfl
  | cons p ps ih =>
      intro b hall
      have hp : p.pitch.confidence ≤ b.confidence := hall p (by simp)
      simp only [List.foldl_cons]
      rw [if_neg (not_lt.mpr hp)]
      exact ih b (fun q hq => hall q (List.mem_cons_of_mem _ hq))

lemma best_fold_find (ps : List Packet) : ∀ b : PitchData,
    b.confidence < (ps.map (fun p => p.pitch.confidence)).foldl max b.confidence →
    (ps.map Packet.pitch).find?
        (fun q => q.confidence
          = (ps.map (fun p => p.pitch.confidence)).foldl max b.confidence)
      = some (ps.foldl
          (fun best p => if p.pitch.confidence > best.confidence then p.pitch else best)
          b) := by
  induction ps with
  | nil =>
      intro b hb
      exact absurd hb (lt_irrefl _)
  | cons p ps ih =>
      intro b hb
      have hMcons :
          ((p :: ps).map (fun q => q.pitch.confidence)).foldl max b.confidence
            = (ps.map (fun q => q.pitch.confidence)).foldl max
                (max b.confidence p.pitch.confidence) := by
        simp [List.foldl_cons]
      rw [hMcons] at hb
      simp only [List.map_cons, List.foldl_cons]
      by_cases hattain :
          p.pitch.confidence
            = (ps.map (fun q => q.pitch.confidence)).foldl max
                (max b.confidence p.pitch.confidence)
      · -- the head already attains the maximum: it is selected and survives
        have hbp : b.confidence < p.pitch.confidence := by
          rw [← hattain] at hb
          exact hb
        have hrest : ∀ q ∈ ps, q.pitch.confidence ≤ p.pitch.confidence := by
          intro q hq
          have hle : q.pitch.confidence
              ≤ (ps.map (fun r => r.pitch.confidence)).foldl max
                  (max b.confidence p.pitch.confidence) :=
            mem_le_foldl_max _ _ _ (List.mem_map_of_mem _ hq)
          rw [← hattain] at hle
          exact hle
        rw [List.find?_cons_of_pos _ (by simpa using hattain), if_pos hbp,
          best_fold_const ps p.pitch hrest]
      · -- the head does not attain the maximum: recurse on the tail
        have hple : p.pitch.confidence
            ≤ (ps.map (fun q => q.pitch.confidence)).foldl max
                (max b.confidence p.pitch.confidence) :=
          le_trans (le_max_right _ _) (le_foldl_max _ _)
        have hplt : p.pitch.confidence
            < (ps.map (fun q => q.pitch.confidence)).foldl max
                (max b.confidence p.pitch.confidence) :=
          lt_of_le_of_ne hple hattain
        have hcond :
            (if p.pitch.confidence > b.confidence then p.pitch else b).confidence
              < (ps.map (fun q => q.pitch.confidence)).foldl max
                  (if p.pitch.confidence > b.confidence then p.pitch else b).confidence := by
          rw [best_step_confidence]
          exact max_lt hb hplt
        have hrec := ih (if p.pitch.confidence > b.confidence then p.pitch else b) hcond
        rw [best_step_confidence] at hrec
        rw [List.find?_cons_of_neg _ (by simpa using hattain)]
        exact hrec

/-- A single frame whose pitch is `440 Hz` with confidence `0`. -/
def pitchCxPackets : List Packet :=
  [⟨fun _ => false, 0, false, ⟨440, 0⟩, [], 1/2⟩]

/-- C4 counterexample.  On a buffer of one frame with pitch `(440, 0)`, the
maximal confidence (0) is attained by the earliest (only) frame, yet
`combine_packets` returns pitch `(0, 0)`, not that frame's pair: the strict
comparison never replaces the initial zero candidate. -/
theorem combine_packets_pitch_cx :
    (combine_packets pitchCxPackets [1]).map Combined.pitch = some ⟨0, 0⟩
      ∧ (⟨0, 0⟩ : PitchData) ≠ ⟨440, 0⟩ := by
  constructor
  · simp [combine_packets, best_pitch_fold, pitchCxPackets]
  · intro hcontra
    have := congrArg PitchData.value hcontra
    norm_num at this

/-- C4 amended.  For every non-empty buffer whose maximal pitch confidence
is positive, the fused pitch is the pair of the earliest frame attaining
that maximal confidence; when no frame has positive confidence, the fused
pitch is `(0, 0)` irrespective of the frames' pitch values. -/
theorem combine_packets_pitch_selection (ps : List Packet) (hist : List ℚ)
    (c : Combined) (h : combine_packets ps hist = some c) :
    (0 < pyMax (ps.map (fun p => p.pitch.confidence)) →
        (ps.map Packet.pitch).find?
            (fun q => q.confidence = pyMax (ps.map (fun p => p.pitch.confidence)))
          = some c.pitch)
      ∧ (pyMax (ps.map (fun p => p.pitch.confidence)) ≤ 0 → c.pitch = ⟨0, 0⟩) := by
  unfold combine_packets at h
  split at h
  · exact absurd h (by simp)
  · rename_i hne
    obtain rfl := (Option.some.injEq _ _).mp h
    have hnil : ps ≠ [] := by
      intro hcontra
      rw [hcontra] at hne
      exact hne rfl
    constructor
    · intro hpos
      -- the running maximum started at 0 agrees with the true maximum
      have hfold : (ps.map (fun p => p.pitch.confidence)).foldl max 0
          = pyMax (ps.map (fun p => p.pitch.confidence)) := by
        cases hps : ps with
        | nil => exact absurd hps hnil
        | cons p ps2 =>
            subst hps
            have h0 := foldl_max_eq_pyMax
              ((p :: ps2).map (fun q => q.pitch.confidence)) 0 (by simp)
            rw [h0]
            exact max_eq_right (le_of_lt hpos)
      have hb0 : (0 : ℚ) < (ps.map (fun p => p.pitch.confidence)).foldl max 0 := by
        rw [hfold]
        exact hpos
      have hfind := best_fold_find ps ⟨0, 0⟩ hb0
      rw [hfold] at hfind
      exact hfind
    · intro hle
      show best_pitch_fold ps = ⟨0, 0⟩
      refine best_fold_const ps ⟨0, 0⟩ (fun p hp => ?_)
      exact le_trans
        (mem_le_pyMax _ _ (List.mem_map_of_mem (fun q => q.pitch.confidence) hp))
        hle

/-- Three frames with confidences `0.5`, `0.9`, `0.9`: the maximal
confidence `0.9` is attained first by the second frame. -/
def pitchWitnessPackets : List Packet :=
  [⟨fun _ => false, 0, false, ⟨100, 1/2⟩, [], 1/2⟩,
   ⟨fun _ => false, 0, false, ⟨440, 9/10⟩, [], 1/2⟩,
   ⟨fun _ => false, 0, false, ⟨220, 9/10⟩, [], 1/2⟩]

/-- Witness for the amended C4: on confidences `[0.5, 0.9, 0.9]` the fused
pitch is the second frame's pair `(440, 0.9)` — maximal confidence, tie
broken by earliest occurrence. -/
theorem combine_packets_pitch_selection_witness :
    (combine_packets pitchWitnessPackets [1]).map Combined.pitch
      = some ⟨440, 9/10⟩ := by
  obtain ⟨c, hc⟩ : ∃ c, combine_packets pitchWitnessPackets [1] = some c := by
    simp [combine_packets, pitchWitnessPackets]
  have hmax : pyMax (pitchWitnessPackets.map (fun p => p.pitch.confidence))
      = 9/10 := by
    simp [pyMax, pitchWitnessPackets]
    norm_num [max_def]
  have hsel := (combine_packets_pitch_selection pitchWitnessPackets [1] c hc).1
    (by rw [hmax]; norm_num)
  rw [hmax] at hsel
  have heval : (pitchWitnessPackets.map Packet.pitch).find?
      (fun q => q.confidence = (9/10 : ℚ)) = some ⟨440, 9/10⟩ := by
    simp [pitchWitnessPackets, List.find?]
    norm_num
  rw [heval] at hsel
  have hcp : c.pitch = ⟨440, 9/10⟩ := (Option.some.inj hsel).symm
  rw [hc]
  simp [hcp]

/-- C10.  For every non-empty buffer in which every frame's pitch
confidence equals 0, the fused pitch is `(0, 0)` regardless of the frames'
pitch values: the strict greater-than comparison never replaces the initial
zero candidate. -/
theorem combine_packets_pitch_all_zero (ps : List Packet) (hist : List ℚ)
    (c : Combined) (h : combine_packets ps hist = some c)
    (hz : ∀ p ∈ ps, p.pitch.confidence = 0) :
    c.pitch = ⟨0, 0⟩ := by
  unfold combine_packets at h
  split at h
  · exact absurd h (by simp)
  · obtain rfl := (Option.some.injEq _ _).mp h
    show best_pitch_fold ps = ⟨0, 0⟩
    exact best_fold_const ps ⟨0, 0⟩ (fun p hp => le_of_eq (hz p hp))

/-- Two frames with nonzero pitch values (`440`, `330`) but confidence 0. -/
def pitchZeroWitnessPackets : List Packet :=
  [⟨fun _ => false, 0, false, ⟨440, 0⟩, [], 1/2⟩,
   ⟨fun _ => false, 0, false, ⟨330, 0⟩, [], 1/2⟩]

/-- Witness for C10: with all confidences 0 the fused pitch is `(0, 0)`,
not the earliest frame's `(440, 0)`. -/
theorem combine_packets_pitch_all_zero_witness :
    (combine_packets pitchZeroWitnessPackets [1]).map Combined.pitch
      = some ⟨0, 0⟩ := by
  obtain ⟨c, hc⟩ : ∃ c, combine_packets pitchZeroWitnessPackets [1] = some c := by
    simp [combine_packets, pitchZeroWitnessPackets]
  have hz := combine_packets_pitch_all_zero pitchZeroWitnessPackets [1] c hc
    (by intro p hp; fin_cases hp <;> rfl)
  rw [hc]
  simp [hz]

/-! ## Frame buffer: append / drain (C6)

The main loop of `broker.py` keeps a `deque` called `buffer`: each
iteration appends one analysis packet (`buffer.append(data_packet)`), and
when a flush fires it takes a snapshot (`list(buffer)`) that is handed to
`combine_packets` and clears the live buffer (`buffer.clear()`).  The loop
is single-threaded, so its history is a sequence of these two operations. -/

/-- One buffer operation of the main loop. -/
inductive BufOp (α : Type) where
  | append (a : α)
  | drain
deriving DecidableEq

/-- The buffer together with the history of drained snapshots. -/
structure BufState (α : Type) where
  buffer : List α
  drained : List (List α)
deriving DecidableEq

/-- Effect of one operation: `append` adds at the right end; `drain`
records the snapshot `list(buffer)` and clears the live buffer. -/
def bufStep {α : Type} (st : BufState α) : BufOp α → BufState α
  | .append a => ⟨st.buffer ++ [a], st.drained⟩
  | .drain => ⟨[], st.drained ++ [st.buffer]⟩

/-- Run a whole operation sequence from the empty initial buffer. -/
def bufRun {α : Type} (ops : List (BufOp α)) : BufState α :=
  ops.foldl bufStep ⟨[], []⟩

/-- The frames appended over an operation sequence, in order. -/
def appendedFrames {α : Type} (ops : List (BufOp α)) : List α :=
  ops.filterMap (fun op => match op with | .append a => some a | .drain => none)

lemma bufRun_invariant {α : Type} (ops : List (BufOp α)) :
    ∀ st : BufState α,
      (ops.foldl bufStep st).drained.flatten ++ (ops.foldl bufStep st).buffer
        = st.drained.flatten ++ st.buffer ++ appendedFrames ops := by
  induction ops with
  | nil =>
      intro st
      simp [appendedFrames]
  | cons op ops ih =>
      intro st
      cases op with
      | append a =>
          rw [List.foldl_cons]
          simp only [bufStep]
          rw [ih ⟨st.buffer ++ [a], st.drained⟩]
          simp [appendedFrames, List.append_assoc]
      | drain =>
          rw [List.foldl_cons]
          simp only [bufStep]
          rw [ih ⟨[], st.drained ++ [st.buffer]⟩]
          simp [appendedFrames, List.append_assoc]

/-- C6.  For every sequence of appends interleaved with drains, the
concatenation of all drained snapshots followed by the frames still
retained in the live buffer is exactly the appended frames, in append
order — no frame is lost, duplicated, or both returned and retained.  In
particular, when the run ends with an empty buffer (e.g. right after a
drain), the drained snapshots alone concatenate to exactly the appended
frames. -/
theorem buffer_no_loss_no_dup {α : Type} (ops : List (BufOp α)) :
    (bufRun ops).drained.flatten ++ (bufRun ops).buffer = appendedFrames ops
      ∧ ((bufRun ops).buffer = [] →
          (bufRun ops).drained.flatten = appendedFrames ops) := by
  have h := bufRun_invariant ops ⟨[], []⟩
  simp only [List.flatten_nil, List.nil_append] at h
  unfold bufRun
  refine ⟨h, fun hempty => ?_⟩
  rw [hempty, List.append_nil] at h
  exact h

/-- Witness for C6 at concrete histories: with appends of 1, 2, 3 and two
drains, snapshots plus the retained buffer are exactly `[1, 2, 3]`; and for
a history ending in a drain, the snapshots alone are all appended frames. -/
theorem buffer_no_loss_no_dup_witness :
    ((bufRun [BufOp.append (1 : ℕ), .append 2, .drain, .append 3]).drained.flatten
        ++ (bufRun [BufOp.append (1 : ℕ), .append 2, .drain, .append 3]).buffer
      = appendedFrames [BufOp.append (1 : ℕ), .append 2, .drain, .append 3])
    ∧ ((bufRun [BufOp.append (5 : ℕ), .drain]).drained.flatten
      = appendedFrames [BufOp.append (5 : ℕ), .drain]) :=
  ⟨(buffer_no_loss_no_dup [BufOp.append (1 : ℕ), .append 2, .drain, .append 3]).1,
   (buffer_no_loss_no_dup [BufOp.append (5 : ℕ), .drain]).2 (by decide)⟩

/-! ## Gain multiplier update (C7)

From `fft_publisher.py`: constants `GAIN_THRESHOLD = 0.03`,
`MAX_GAIN = 0.8`, `MIN_GAIN = 0.2`, initial `gain_multiplier = 0.5`, and
the per-cycle update of `gain_multiplier` from the rolling average volume
(main loop, lines 213–244). -/

def GAIN_THRESHOLD : ℚ := 3 / 100

def MAX_GAIN : ℚ := 4 / 5

def MIN_GAIN : ℚ := 1 / 5

/-- One gain-update cycle, a function of the current `gain_multiplier` and
the rolling average volume `avg_volume`.  Below the threshold the gain is
exponentially relaxed toward a volume-proportional target (faster when very
quiet); at or above it, the gain moves toward a target by at most `0.01`
per cycle and is clamped into `[MIN_GAIN, MAX_GAIN]`. -/
def gain_update (gain_multiplier avg_volume : ℚ) : ℚ :=
  if avg_volume < GAIN_THRESHOLD then
    let target_gain := MIN_GAIN + (avg_volume / GAIN_THRESHOLD) * (MAX_GAIN - MIN_GAIN)
    let reduction_factor : ℚ :=
      if avg_volume < GAIN_THRESHOLD * (1/2) then 80/100 else 95/100
    reduction_factor * gain_multiplier + (1 - reduction_factor) * target_gain
  else
    let volume_factor := min 1 ((avg_volume - GAIN_THRESHOLD) / (GAIN_THRESHOLD * 2))
    let target_gain := MIN_GAIN + (MAX_GAIN - MIN_GAIN) * (1/2 + volume_factor * (1/2))
    let max_change : ℚ := 1/100
    let new_gain :=
      if target_gain > gain_multiplier then min target_gain (gain_multiplier + max_change)
      else max target_gain (gain_multiplier - max_change)
    max MIN_GAIN (min MAX_GAIN new_gain)

lemma gain_update_mem (g avg : ℚ) (havg : 0 ≤ avg)
    (hlo : MIN_GAIN ≤ g) (hhi : g ≤ MAX_GAIN) :
    MIN_GAIN ≤ gain_update g avg ∧ gain_update g avg ≤ MAX_GAIN := by
  unfold gain_update
  by_cases hq : avg < GAIN_THRESHOLD
  · rw [if_pos hq]
    have ht1 : MIN_GAIN ≤ MIN_GAIN + (avg / GAIN_THRESHOLD) * (MAX_GAIN - MIN_GAIN) := by
      unfold MIN_GAIN MAX_GAIN GAIN_THRESHOLD at *
      nlinarith
    have ht2 : MIN_GAIN + (avg / GAIN_THRESHOLD) * (MAX_GAIN - MIN_GAIN) ≤ MAX_GAIN := by
      unfold MIN_GAIN MAX_GAIN GAIN_THRESHOLD at *
      nlinarith
    by_cases hq2 : avg < GAIN_THRESHOLD * (1/2)
    · rw [if_pos hq2]
      constructor <;> nlinarith
    · rw [if_neg hq2]
      constructor <;> nlinarith
  · rw [if_neg hq]
    constructor
    · exact le_max_left _ _
    · have h1 : MIN_GAIN ≤ MAX_GAIN := by unfold MIN_GAIN MAX_GAIN; norm_num
      exact max_le h1 (min_le_left _ _)

/-- C7.  Starting from the initial gain `0.5`, after any number of update
cycles driven by any sequence of (nonnegative) average-loudness inputs, the
gain multiplier stays within `[MIN_GAIN, MAX_GAIN]` inclusive. -/
theorem gain_multiplier_bounded (avgs : List ℚ) (h : ∀ a ∈ avgs, 0 ≤ a) :
    MIN_GAIN ≤ avgs.foldl gain_update (1/2)
      ∧ avgs.foldl gain_update (1/2) ≤ MAX_GAIN := by
  have haux : ∀ (l : List ℚ) (g : ℚ), (∀ a ∈ l, 0 ≤ a) →
      MIN_GAIN ≤ g → g ≤ MAX_GAIN →
      MIN_GAIN ≤ l.foldl gain_update g ∧ l.foldl gain_update g ≤ MAX_GAIN := by
    intro l
    induction l with
    | nil =>
        intro g _ hlo hhi
        exact ⟨hlo, hhi⟩
    | cons a l ih =>
        intro g hall hlo hhi
        have ha : 0 ≤ a := hall a (by simp)
        obtain ⟨h1, h2⟩ := gain_update_mem g a ha hlo hhi
        exact ih (gain_update g a) (fun b hb => hall b (List.mem_cons_of_mem _ hb)) h1 h2
  exact haux avgs (1/2) h (by unfold MIN_GAIN; norm_num) (by unfold MAX_GAIN; norm_num)

/-- Witness for C7 on the extreme input sequence `[0, 1000, 0.01]`
(silence, a very loud stretch, near-silence). -/
theorem gain_multiplier_bounded_witness :
    MIN_GAIN ≤ ([0, 1000, 1/100] : List ℚ).foldl gain_update (1/2)
      ∧ ([0, 1000, 1/100] : List ℚ).foldl gain_update (1/2) ≤ MAX_GAIN :=
  gain_multiplier_bounded [0, 1000, 1/100] (by
    intro a ha
    fin_cases ha <;> norm_num)

/-! ## Analyzer failure semantics in the acquisition loop (C8)

In the main loop of `broker.py`, `process_audio_buffer(signal)` is called
with no surrounding `try`/`except`: the only handler around the `while`
loop is `except KeyboardInterrupt` (plus a `finally` doing cleanup).  An
exception raised by the analyzer therefore propagates out of the loop and
ends acquisition.  We model each iteration's analyzer call by its outcome:
either a packet, or an uncaught exception. -/

/-- Outcome of one analyzer call: a frame result, or an exception that is
not a KeyboardInterrupt. -/
inductive FrameOutcome (α : Type) where
  | ok (a : α)
  | raise
deriving DecidableEq

/-- The frames of the outcomes that succeeded. -/
def okFrames {α : Type} (l : List (FrameOutcome α)) : List α :=
  l.filterMap (fun o => match o with | .ok a => some a | .raise => none)

/-- Whether an outcome is a successful analysis. -/
def FrameOutcome.isOk {α : Type} : FrameOutcome α → Bool
  | .ok _ => true
  | .raise => false

/-- Run the acquisition loop over the analyzer outcomes, accumulating the
buffered frames.  A successful frame is appended and the loop continues; an
exception stops the loop at once (nothing catches it inside the loop).  The
boolean records whether the run was terminated by such an exception. -/
def acquisition_run {α : Type} : List (FrameOutcome α) → List α → List α × Bool
  | [], buf => (buf, false)
  | .ok a :: rest, buf => acquisition_run rest (buf ++ [a])
  | .raise :: _, buf => (buf, true)

/-- C8 counterexample.  With an analyzer exception on the first frame and a
good second frame, the loop terminates at the failure with an empty buffer:
the run does not equal the claimed drop-and-continue outcome, in which the
buffer would hold the later good frame and acquisition would not have
terminated. -/
theorem acquisition_failure_cx :
    acquisition_run [FrameOutcome.raise, FrameOutcome.ok (1 : ℕ)] [] = ([], true)
      ∧ acquisition_run [FrameOutcome.raise, FrameOutcome.ok (1 : ℕ)] []
          ≠ (okFrames [FrameOutcome.raise, FrameOutcome.ok (1 : ℕ)], false) := by
  constructor
  · rfl
  · intro hcontra
    have := congrArg Prod.snd hcontra
    simp [acquisition_run] at this

/-- C8 amended.  If the analyzer call raises for some frame, the exception
is not caught (only KeyboardInterrupt is handled): the acquisition loop
terminates at the first failing frame, having buffered exactly the frames
analyzed successfully before it; the failing frame is dropped, but no
further frame is acquired and no further flush happens. -/
theorem acquisition_stops_at_first_failure {α : Type}
    (outcomes : List (FrameOutcome α)) (buf : List α) :
    acquisition_run outcomes buf
      = (buf ++ okFrames (outcomes.takeWhile FrameOutcome.isOk),
         outcomes.any (fun o => !o.isOk)) := by
  induction outcomes generalizing buf with
  | nil => simp [acquisition_run, okFrames]
  | cons o rest ih =>
      cases o with
      | ok a =>
          rw [show acquisition_run (FrameOutcome.ok a :: rest) buf
              = acquisition_run rest (buf ++ [a]) from rfl, ih (buf ++ [a])]
          simp [okFrames, FrameOutcome.isOk, List.append_assoc]
      | raise =>
          simp [acquisition_run, okFrames, FrameOutcome.isOk]

/-! ## Flush scheduling (C9)

The main loop of `broker.py` keeps an absolute deadline `next_frame`
(initialized to the start time) and polls it once per iteration:
`if current_time >= next_frame:` flush once and `next_frame +=
FRAME_TIME`.  The next deadline is thus the previous deadline plus the
fixed period — not "sleep T after the flush" — so processing cost inside an
iteration shifts poll times but not the deadline grid.  We model a run by
the sequence of poll times. -/

/-- Scheduler state: the absolute deadline `next_frame` and the number of
flush ticks fired so far. -/
structure SchedState where
  next_frame : ℚ
  ticks : ℕ
deriving DecidableEq

/-- One poll at absolute time `current_time`: flush exactly once if the
deadline has passed, moving the deadline forward by one period. -/
def sched_poll (T : ℚ) (st : SchedState) (current_time : ℚ) : SchedState :=
  if st.next_frame ≤ current_time then ⟨st.next_frame + T, st.ticks + 1⟩ else st

/-- Run the flush scheduler over a sequence of poll times, starting with
the deadline at the start time `t0` and no ticks fired. -/
def sched_run (T t0 : ℚ) (polls : List ℚ) : SchedState :=
  polls.foldl (sched_poll T) ⟨t0, 0⟩

/-- Adjacent poll times are ordered and separated by at most one period
(one loop iteration costs at most `T`). -/
def pollGapsOk (T : ℚ) (prev : ℚ) (polls : List ℚ) : Prop :=
  List.Chain (fun a b => a ≤ b ∧ b ≤ a + T) prev polls

lemma sched_run_shape (T : ℚ) (polls : List ℚ) : ∀ st : SchedState,
    ∃ k : ℕ, (polls.foldl (sched_poll T) st).next_frame
        = st.next_frame + (k : ℚ) * T
      ∧ (polls.foldl (sched_poll T) st).ticks = st.ticks + k := by
  induction polls with
  | nil =>
      intro st
      exact ⟨0, by simp, by simp⟩
  | cons q qs ih =>
      intro st
      rw [List.foldl_cons]
      by_cases hq : st.next_frame ≤ q
      · have hstep : sched_poll T st q = ⟨st.next_frame + T, st.ticks + 1⟩ := by
          unfold sched_poll
          rw [if_pos hq]
        rw [hstep]
        obtain ⟨k, h1, h2⟩ := ih ⟨st.next_frame + T, st.ticks + 1⟩
        refine ⟨k + 1, ?_, ?_⟩
        · rw [h1]
          show st.next_frame + T + (k : ℚ) * T = st.next_frame + ((k : ℕ) + 1 : ℕ) * T
          push_cast
          ring
        · rw [h2]
          show st.ticks + 1 + k = st.ticks + (k + 1)
          omega
      · have hstep : sched_poll T st q = st := by
          unfold sched_poll
          rw [if_neg hq]
        rw [hstep]
        exact ih st

lemma sched_invariant (T : ℚ) (hT : 0 < T) (polls : List ℚ) :
    ∀ (st : SchedState) (prev : ℚ), pollGapsOk T prev polls →
      prev - T < st.next_frame → st.next_frame ≤ prev + T →
      polls.getLastD prev - T < (polls.foldl (sched_poll T) st).next_frame
        ∧ (polls.foldl (sched_poll T) st).next_frame ≤ polls.getLastD prev + T := by
  induction polls with
  | nil =>
      intro st prev _ hlo hhi
      exact ⟨hlo, hhi⟩
  | cons q qs ih =>
      intro st prev hchain hlo hhi
      rw [pollGapsOk, List.chain_cons] at hchain
      obtain ⟨⟨hpq, hqT⟩, hchain2⟩ := hchain
      rw [List.foldl_cons, List.getLastD_cons]
      unfold sched_poll
      by_cases hq : st.next_frame ≤ q
      · rw [if_pos hq]
        exact ih ⟨st.next_frame + T, st.ticks + 1⟩ q hchain2
          (by simp only []; linarith) (by simp only []; linarith)
      · rw [if_neg hq]
        push_neg at hq
        exact ih st q hchain2 (by linarith) (by linarith)

/-- C9 counterexample.  The deviation bound fails under the claim's
average-cost proviso alone.  Take `T = 1`, start `0`, and one loop
iteration that stalls for 4 periods (a single expensive flush) amid
otherwise fast iterations: polls at `0, 1/2, 1, 3/2, 2, 5/2, 3, 7`.  Five
flushes fire (at polls `0, 1, 2, 3, 7`); the per-flush processing costs are
`0, 0, 0, 0, 4` (only the flush at time 3 is expensive — the next poll
comes 4 s later), whose average `4/5` is below `T = 1`.  Yet the run lasts
`D = 7` periods and only `5` ticks fire: the scheduler catches up only one
period per loop iteration, so a run ending mid-catch-up deviates from
`⌊D/T⌋ = 7` by `2`, not at most `1`. -/
theorem flush_tick_count_cx :
    (sched_run 1 0 [0, 1/2, 1, 3/2, 2, 5/2, 3, 7]).ticks = 5
      ∧ ⌊((7 : ℚ) - 0) / 1⌋ = 7
      ∧ ([0, 0, 0, 0, 4] : List ℚ).sum / 5 < 1
      ∧ ¬ |((sched_run 1 0 [0, 1/2, 1, 3/2, 2, 5/2, 3, 7]).ticks : ℤ)
            - ⌊((7 : ℚ) - 0) / 1⌋| ≤ 1 := by
  have h1 : (sched_run 1 0 [0, 1/2, 1, 3/2, 2, 5/2, 3, 7]).ticks = 5 := by
    norm_num [sched_run, sched_poll]
  have h2 : ⌊((7 : ℚ) - 0) / 1⌋ = 7 := by norm_num
  refine ⟨h1, h2, by norm_num, ?_⟩
  rw [h1, h2]
  norm_num

/-- C9 amended.  The scheduler advances each deadline by exactly the
period (`next_frame += FRAME_TIME` from the previous deadline, not "sleep T
after the flush") and fires at most one catch-up flush per loop iteration,
each flush covering all frames accumulated since the previous one.  Over
any run whose loop iterations each cost at most one period (every poll gap
at most `T` — a per-iteration bound, strictly stronger than the claim's
"below T on average", which the counterexample refutes), the number of
flush ticks deviates from `⌊D/T⌋` by at most 1, where `D` is the elapsed
duration from start to the last poll. -/
theorem flush_tick_count (T t0 : ℚ) (polls : List ℚ) (hT : 0 < T)
    (hne : polls ≠ []) (hchain : pollGapsOk T t0 polls) :
    |((sched_run T t0 polls).ticks : ℤ) - ⌊(polls.getLast hne - t0) / T⌋| ≤ 1 := by
  obtain ⟨k, hnf, hticks⟩ := sched_run_shape T polls ⟨t0, 0⟩
  have hinv := sched_invariant T hT polls ⟨t0, 0⟩ t0 hchain
    (by simp only []; linarith) (by simp only []; linarith)
  have hlastD : polls.getLastD t0 = polls.getLast hne := by
    rw [List.getLastD_eq_getLast?, List.getLast?_eq_getLast polls hne]
    rfl
  rw [hlastD] at hinv
  rw [hnf] at hinv
  obtain ⟨hlow, hhigh⟩ := hinv
  -- set D as the elapsed duration
  set D : ℚ := polls.getLast hne - t0 with hD
  have hlow2 : D - T < (k : ℚ) * T := by
    simp only [] at hlow
    linarith
  have hhigh2 : (k : ℚ) * T ≤ D + T := by
    simp only [] at hhigh
    linarith
  have hdivlt : D / T < (k : ℚ) + 1 := by
    rw [div_lt_iff₀ hT]
    ring_nf
    ring_nf at hlow2
    linarith
  have hdivge : (k : ℚ) - 1 ≤ D / T := by
    rw [le_div_iff₀ hT]
    ring_nf
    ring_nf at hhigh2
    linarith
  have hfloor_le : (⌊D / T⌋ : ℤ) ≤ (k : ℤ) := by
    have h1 : ((⌊D / T⌋ : ℤ) : ℚ) ≤ D / T := Int.floor_le _
    have h2 : ((⌊D / T⌋ : ℤ) : ℚ) < (k : ℚ) + 1 := lt_of_le_of_lt h1 hdivlt
    have h3 : (⌊D / T⌋ : ℤ) < (k : ℤ) + 1 := by exact_mod_cast h2
    omega
  have hk_le : (k : ℤ) ≤ ⌊D / T⌋ + 1 := by
    have h1 : ((k : ℤ) - 1 : ℤ) ≤ ⌊D / T⌋ := by
      apply Int.le_floor.mpr
      push_cast
      exact hdivge
    omega
  have hticks2 : (sched_run T t0 polls).ticks = k := by
    rw [sched_run, hticks]
    simp
  rw [hticks2, abs_le]
  omega

/-- Witness for C9: period `T = 1`, start `0`, polls at `1/2`, `1`, `3/2`.
Two ticks fire over a duration of `3/2`, and `|2 - ⌊3/2⌋| ≤ 1`. -/
theorem flush_tick_count_witness :
    |((sched_run 1 0 [1/2, 1, 3/2]).ticks : ℤ) - ⌊((3/2 : ℚ) - 0) / 1⌋| ≤ 1 := by
  have h := flush_tick_count 1 0 [1/2, 1, 3/2] (by norm_num) (by simp)
    (by
      rw [pollGapsOk, List.chain_cons, List.chain_cons, List.chain_cons]
      norm_num)
  simpa using h

end BeatZero
